import Mathlib

/-!
Verification of the stock-prediction pipeline (notebook `code.ipynb`).

The pipeline works on daily OHLCV rows.  We embed its stages shallowly:
columns are lists of exact rationals (`List ℚ`), cells that pandas leaves
as NaN are modelled with `Option ℚ`, and each stage of the notebook
becomes an executable Lean function translated from the corresponding
cell of the source.
-/

namespace StockPred

/-! ### Normalizer: MinMaxScaler (notebook section 2 and section 4) -/

/-- Smallest entry of a column (`0` for an empty column, which the
pipeline never produces). -/
def colMin : List ℚ → ℚ
  | [] => 0
  | x :: xs => xs.foldl min x

/-- Largest entry of a column. -/
def colMax : List ℚ → ℚ
  | [] => 0
  | x :: xs => xs.foldl max x

/-- Value of one cell after min-max scaling of its column, as
`MinMaxScaler` with the default feature range `(0, 1)` computes it:
`(x - min) / (max - min)`. -/
def scaleVal (xs : List ℚ) (x : ℚ) : ℚ :=
  (x - colMin xs) / (colMax xs - colMin xs)

/-- One column after `MinMaxScaler.fit_transform`. -/
def minmaxScale (xs : List ℚ) : List ℚ :=
  xs.map (scaleVal xs)

/-- Inverse transform of the fitted scaler applied to a scaled column
`ys`, using the min and max stored when fitting on `xs`:
`y * (max - min) + min`. -/
def minmaxInverse (xs ys : List ℚ) : List ℚ :=
  ys.map fun y => y * (colMax xs - colMin xs) + colMin xs

/-- The Normalizer applied to a whole table, given as its list of
columns: every column is min-max scaled independently. -/
def scaleTable (cols : List (List ℚ)) : List (List ℚ) :=
  cols.map minmaxScale

/-! ### Post-Normalizer: dropna (notebook section 4) -/

/-- A row is complete when every cell is defined (pandas: no NaN). -/
def rowComplete (r : List (Option ℚ)) : Bool :=
  r.all fun c => c.isSome

/-- Row-dropping step of `DataFrame.dropna`: a row is kept exactly when
all of its cells are defined, in the original order. -/
def dropna : List (List (Option ℚ)) → List (List (Option ℚ))
  | [] => []
  | r :: rs => if rowComplete r then r :: dropna rs else dropna rs

/-! ### Helper lemmas about column minima and maxima -/

theorem foldl_min_le_init (xs : List ℚ) (a : ℚ) : xs.foldl min a ≤ a := by
  induction xs generalizing a with
  | nil => simp
  | cons x xs ih =>
    simpa using le_trans (ih (min a x)) (min_le_left a x)

theorem foldl_min_le_mem (xs : List ℚ) (a x : ℚ) (hx : x ∈ xs) :
    xs.foldl min a ≤ x := by
  induction xs generalizing a with
  | nil => simp at hx
  | cons y ys ih =>
    rcases List.mem_cons.mp hx with h | h
    · subst h
      exact le_trans (foldl_min_le_init ys (min a x)) (min_le_right a x)
    · exact ih (min a y) h

theorem init_le_foldl_max (xs : List ℚ) (a : ℚ) : a ≤ xs.foldl max a := by
  induction xs generalizing a with
  | nil => simp
  | cons x xs ih =>
    simpa using le_trans (le_max_left a x) (ih (max a x))

theorem mem_le_foldl_max (xs : List ℚ) (a x : ℚ) (hx : x ∈ xs) :
    x ≤ xs.foldl max a := by
  induction xs generalizing a with
  | nil => simp at hx
  | cons y ys ih =>
    rcases List.mem_cons.mp hx with h | h
    · subst h
      exact le_trans (le_max_right a x) (init_le_foldl_max ys (max a x))
    · exact ih (max a y) h

theorem colMin_le (xs : List ℚ) (x : ℚ) (hx : x ∈ xs) : colMin xs ≤ x := by
  cases xs with
  | nil => simp at hx
  | cons y ys =>
    rcases List.mem_cons.mp hx with h | h
    · subst h; exact foldl_min_le_init ys x
    · exact foldl_min_le_mem ys y x h

theorem le_colMax (xs : List ℚ) (x : ℚ) (hx : x ∈ xs) : x ≤ colMax xs := by
  cases xs with
  | nil => simp at hx
  | cons y ys =>
    rcases List.mem_cons.mp hx with h | h
    · subst h; exact init_le_foldl_max ys x
    · exact mem_le_foldl_max ys y x h

theorem foldl_min_mem (xs : List ℚ) (a : ℚ) :
    xs.foldl min a = a ∨ xs.foldl min a ∈ xs := by
  induction xs generalizing a with
  | nil => exact Or.inl rfl
  | cons x xs ih =>
    rcases ih (min a x) with h | h
    · rw [List.foldl_cons, h]
      rcases min_choice a x with h2 | h2
      · exact Or.inl h2
      · exact Or.inr (by rw [h2]; exact List.mem_cons_self x xs)
    · exact Or.inr (List.mem_cons_of_mem x h)

theorem foldl_max_mem (xs : List ℚ) (a : ℚ) :
    xs.foldl max a = a ∨ xs.foldl max a ∈ xs := by
  induction xs generalizing a with
  | nil => exact Or.inl rfl
  | cons x xs ih =>
    rcases ih (max a x) with h | h
    · rw [List.foldl_cons, h]
      rcases max_choice a x with h2 | h2
      · exact Or.inl h2
      · exact Or.inr (by rw [h2]; exact List.mem_cons_self x xs)
    · exact Or.inr (List.mem_cons_of_mem x h)

theorem colMin_mem (xs : List ℚ) (h : xs ≠ []) : colMin xs ∈ xs := by
  cases xs with
  | nil => exact absurd rfl h
  | cons y ys =>
    rcases foldl_min_mem ys y with h2 | h2
    · rw [colMin, h2]; exact List.mem_cons_self y ys
    · exact List.mem_cons_of_mem y h2

theorem colMax_mem (xs : List ℚ) (h : xs ≠ []) : colMax xs ∈ xs := by
  cases xs with
  | nil => exact absurd rfl h
  | cons y ys =>
    rcases foldl_max_mem ys y with h2 | h2
    · rw [colMax, h2]; exact List.mem_cons_self y ys
    · exact List.mem_cons_of_mem y h2

theorem colMin_lt_colMax (xs : List ℚ) (a b : ℚ) (ha : a ∈ xs) (hb : b ∈ xs)
    (hab : a ≠ b) : colMin xs < colMax xs := by
  rcases lt_or_gt_of_ne hab with h | h
  · exact lt_of_le_of_lt (colMin_le xs a ha) (lt_of_lt_of_le h (le_colMax xs b hb))
  · exact lt_of_le_of_lt (colMin_le xs b hb) (lt_of_lt_of_le h (le_colMax xs a ha))

/-- C5.  For every input table in which each column contains at least two
distinct values, every entry of the min-max-scaled output lies in `[0, 1]`,
and each column's observed minimum maps to `0` and its observed maximum
maps to `1`. -/
theorem minmax_range_C5 (cols : List (List ℚ))
    (hcols : ∀ col ∈ cols, ∃ a ∈ col, ∃ b ∈ col, a ≠ b) :
    ∀ col ∈ cols,
      minmaxScale col ∈ scaleTable cols ∧
      (∀ y ∈ minmaxScale col, 0 ≤ y ∧ y ≤ 1) ∧
      colMin col ∈ col ∧ colMax col ∈ col ∧
      scaleVal col (colMin col) = 0 ∧ scaleVal col (colMax col) = 1 := by
  intro col hcol
  obtain ⟨a, ha, b, hb, hab⟩ := hcols col hcol
  have hne : col ≠ [] := by
    intro h; rw [h] at ha; exact absurd ha (List.not_mem_nil a)
  have hlt : colMin col < colMax col := colMin_lt_colMax col a b ha hb hab
  have hpos : 0 < colMax col - colMin col := sub_pos.mpr hlt
  refine ⟨List.mem_map_of_mem minmaxScale hcol, ?_, colMin_mem col hne,
    colMax_mem col hne, ?_, ?_⟩
  · intro y hy
    obtain ⟨x, hx, hxy⟩ := List.mem_map.mp hy
    subst hxy
    constructor
    · exact div_nonneg (sub_nonneg.mpr (colMin_le col x hx)) (le_of_lt hpos)
    · rw [scaleVal, div_le_one hpos]
      exact sub_le_sub_right (le_colMax col x hx) (colMin col)
  · simp [scaleVal]
  · rw [scaleVal, div_eq_one_iff_eq (ne_of_gt hpos)]

/-- Witness for C5 at a concrete table and column. -/
theorem minmax_range_C5_witness :
    minmaxScale [(1 : ℚ), 3] ∈ scaleTable [[(1 : ℚ), 3]] ∧
    (∀ y ∈ minmaxScale [(1 : ℚ), 3], 0 ≤ y ∧ y ≤ 1) ∧
    colMin [(1 : ℚ), 3] ∈ [(1 : ℚ), 3] ∧ colMax [(1 : ℚ), 3] ∈ [(1 : ℚ), 3] ∧
    scaleVal [(1 : ℚ), 3] (colMin [(1 : ℚ), 3]) = 0 ∧
    scaleVal [(1 : ℚ), 3] (colMax [(1 : ℚ), 3]) = 1 :=
  minmax_range_C5 [[(1 : ℚ), 3]] (by decide) [(1 : ℚ), 3] (by decide)

/-- C6.  For a column whose observed minimum is strictly below its observed
maximum, the inverse transform built from the stored min and max undoes
min-max scaling: applied entrywise to the scaled column it returns the
original column. -/
theorem minmax_inverse_C6 (xs : List ℚ) (h : colMin xs < colMax xs) :
    minmaxInverse xs (minmaxScale xs) = xs := by
  have hne : colMax xs - colMin xs ≠ 0 := ne_of_gt (sub_pos.mpr h)
  unfold minmaxInverse minmaxScale
  rw [List.map_map]
  conv_rhs => rw [← List.map_id xs]
  refine List.map_congr_left ?_
  intro x _
  simp only [Function.comp_apply, scaleVal, id]
  field_simp

/-- Witness for C6 at a concrete column. -/
theorem minmax_inverse_C6_witness :
    colMin [(1 : ℚ), 3] < colMax [(1 : ℚ), 3] ∧
    minmaxInverse [(1 : ℚ), 3] (minmaxScale [(1 : ℚ), 3]) = [(1 : ℚ), 3] :=
  ⟨by decide, minmax_inverse_C6 [(1 : ℚ), 3] (by decide)⟩

/-- C7.  The row-dropping step keeps exactly the rows in which every cell
is defined: the output is `filter rowComplete` of the input, it is a
sublist of the input (original order preserved), every complete input row
is kept with its multiplicity, and the output has no undefined cell. -/
theorem dropna_spec_C7 (rows : List (List (Option ℚ))) :
    dropna rows = rows.filter rowComplete ∧
    (dropna rows).Sublist rows ∧
    (∀ r, rowComplete r = true → (dropna rows).count r = rows.count r) ∧
    (∀ r ∈ dropna rows, ∀ c ∈ r, c.isSome = true) := by
  have hfilter : dropna rows = rows.filter rowComplete := by
    induction rows with
    | nil => rfl
    | cons r rs ih =>
      by_cases h : rowComplete r
      · rw [dropna, if_pos h, ih, List.filter_cons_of_pos h]
      · rw [dropna, if_neg h, ih,
          List.filter_cons_of_neg (by simpa using h)]
  refine ⟨hfilter, ?_, ?_, ?_⟩
  · rw [hfilter]; exact List.filter_sublist rows
  · intro r hr
    rw [hfilter, List.count_filter]
    simp [hr]
  · intro r hr c hc
    rw [hfilter] at hr
    have := List.of_mem_filter hr
    exact List.all_eq_true.mp this c hc

/-! ### Baseline stage: next-day target (notebook section 6) -/

/-- Row of the post-normalized dataset: its `Close` value and the other
feature columns of the same row. -/
structure NRow where
  close : ℚ
  feats : List ℚ
deriving DecidableEq, Inhabited, Repr

/-- Row of the baseline frame after the `Target` column has been added:
`Close`, `Target` and the remaining features. -/
structure TRow where
  close : ℚ
  target : ℚ
  feats : List ℚ
deriving DecidableEq, Inhabited, Repr

/-- Close.shift of minus one: each row is paired with the close of the
following row; the last row gets NaN (`none`). -/
def withTarget : List NRow → List (NRow × Option ℚ)
  | [] => []
  | [r] => [(r, none)]
  | r :: r' :: rs => (r, some r'.close) :: withTarget (r' :: rs)

/-- dropna after the shift: keep exactly the rows whose target cell is
defined. -/
def dropIncomplete (ps : List (NRow × Option ℚ)) : List TRow :=
  ps.filterMap fun p => p.2.map fun tg => TRow.mk p.1.close tg p.1.feats

/-- The baseline stage: add the next-day close as `Target`, then drop the
rows (only the last one) where it is undefined. -/
def baselineFrame (rows : List NRow) : List TRow :=
  dropIncomplete (withTarget rows)

theorem baselineFrame_cons (r r' : NRow) (rs : List NRow) :
    baselineFrame (r :: r' :: rs) =
      TRow.mk r.close r'.close r.feats :: baselineFrame (r' :: rs) := rfl

theorem baselineFrame_length (rows : List NRow) :
    (baselineFrame rows).length = rows.length - 1 := by
  induction rows with
  | nil => rfl
  | cons r rest ih =>
    cases rest with
    | nil => rfl
    | cons r' rs =>
      rw [baselineFrame_cons, List.length_cons, ih]
      simp

theorem baselineFrame_getD (rows : List NRow) (t : ℕ) (ht : t + 1 < rows.length) :
    (baselineFrame rows).getD t default =
      TRow.mk (rows.getD t default).close (rows.getD (t + 1) default).close
        (rows.getD t default).feats := by
  induction rows generalizing t with
  | nil => simp at ht
  | cons r rest ih =>
    cases rest with
    | nil => simp at ht
    | cons r' rs =>
      rw [baselineFrame_cons]
      cases t with
      | zero => simp [List.getD_cons_zero, List.getD_cons_succ]
      | succ t' =>
        rw [List.getD_cons_succ, List.getD_cons_succ, List.getD_cons_succ]
        exact ih t' (by simpa using Nat.lt_of_succ_lt_succ ht)

/-- C3.  The baseline frame has one row fewer than its input (the last
row, whose shifted target is undefined, is dropped); row `t` of the frame
has target equal to the close of input row `t + 1` and carries the close
and the feature vector of input row `t` itself. -/
theorem baseline_target_C3 (rows : List NRow) (t : ℕ) (ht : t + 1 < rows.length) :
    (baselineFrame rows).length = rows.length - 1 ∧
    ((baselineFrame rows).getD t default).target = (rows.getD (t + 1) default).close ∧
    ((baselineFrame rows).getD t default).close = (rows.getD t default).close ∧
    ((baselineFrame rows).getD t default).feats = (rows.getD t default).feats := by
  refine ⟨baselineFrame_length rows, ?_, ?_, ?_⟩ <;>
    rw [baselineFrame_getD rows t ht]

/-- Witness for C3 at a concrete three-row dataset. -/
theorem baseline_target_C3_witness :
    (baselineFrame [NRow.mk 1 [10], NRow.mk 2 [20], NRow.mk 3 [30]]).length = 3 - 1 ∧
    ((baselineFrame [NRow.mk 1 [10], NRow.mk 2 [20], NRow.mk 3 [30]]).getD 1 default).target
      = ([NRow.mk 1 [10], NRow.mk 2 [20], NRow.mk 3 [30]].getD 2 default).close ∧
    ((baselineFrame [NRow.mk 1 [10], NRow.mk 2 [20], NRow.mk 3 [30]]).getD 1 default).close
      = ([NRow.mk 1 [10], NRow.mk 2 [20], NRow.mk 3 [30]].getD 1 default).close ∧
    ((baselineFrame [NRow.mk 1 [10], NRow.mk 2 [20], NRow.mk 3 [30]]).getD 1 default).feats
      = ([NRow.mk 1 [10], NRow.mk 2 [20], NRow.mk 3 [30]].getD 1 default).feats := by
  have h := baseline_target_C3 [NRow.mk 1 [10], NRow.mk 2 [20], NRow.mk 3 [30]] 1
    (by decide)
  simpa using h

/-! ### Sequence construction (notebook sections 7 and 8) -/

/-- Sliding-window sequence builder `create_sequences`: for every
`i < len - w` it emits the window of rows `i, …, i + w - 1` together with
the `Close` value of row `i + w`. -/
def createSequences {α : Type} [Inhabited α] (closeOf : α → ℚ)
    (rows : List α) (w : ℕ) : List (List α × ℚ) :=
  (List.range (rows.length - w)).map fun i =>
    ((rows.drop i).take w, closeOf (rows.getD (i + w) default))

theorem createSequences_getD {α : Type} [Inhabited α] (closeOf : α → ℚ)
    (rows : List α) (w i : ℕ) (hi : i < rows.length - w) :
    (createSequences closeOf rows w).getD i ([], 0) =
      ((rows.drop i).take w, closeOf (rows.getD (i + w) default)) := by
  rw [createSequences, List.getD_eq_getElem?_getD, List.getElem?_map,
    List.getElem?_range hi]
  rfl

theorem window_getD {α : Type} [Inhabited α] (rows : List α) (i w j : ℕ)
    (hj : j < w) :
    ((rows.drop i).take w).getD j default = rows.getD (i + j) default := by
  rw [List.getD_eq_getElem?_getD, List.getElem?_take_of_lt hj,
    List.getElem?_drop, ← List.getD_eq_getElem?_getD]

/-- C4.  With `0 < w < len`, `create_sequences` returns `len - w` pairs;
the `i`-th sequence is the `w` rows `i, …, i + w - 1` in order and the
`i`-th target is the `Close` value of row `i + w`. -/
theorem create_sequences_C4 {α : Type} [Inhabited α] (closeOf : α → ℚ)
    (rows : List α) (w : ℕ) (hw : 0 < w) (hwl : w < rows.length) :
    (createSequences closeOf rows w).length = rows.length - w ∧
    ∀ i, i < rows.length - w →
      ((createSequences closeOf rows w).getD i ([], 0)).1.length = w ∧
      (∀ j, j < w →
        ((createSequences closeOf rows w).getD i ([], 0)).1.getD j default
          = rows.getD (i + j) default) ∧
      ((createSequences closeOf rows w).getD i ([], 0)).2
        = closeOf (rows.getD (i + w) default) := by
  constructor
  · rw [createSequences, List.length_map, List.length_range]
  · intro i hi
    rw [createSequences_getD closeOf rows w i hi]
    refine ⟨?_, ?_, rfl⟩
    · rw [List.length_take, List.length_drop]
      omega
    · intro j hj
      exact window_getD rows i w j hj

/-- Witness for C4 on a concrete four-row dataset with window 2. -/
theorem create_sequences_C4_witness :
    0 < 2 ∧ 2 < ([(1 : ℚ), 2, 3, 4]).length ∧
    ((createSequences id [(1 : ℚ), 2, 3, 4] 2).length = ([(1 : ℚ), 2, 3, 4]).length - 2 ∧
    ∀ i, i < ([(1 : ℚ), 2, 3, 4]).length - 2 →
      ((createSequences id [(1 : ℚ), 2, 3, 4] 2).getD i ([], 0)).1.length = 2 ∧
      (∀ j, j < 2 →
        ((createSequences id [(1 : ℚ), 2, 3, 4] 2).getD i ([], 0)).1.getD j default
          = [(1 : ℚ), 2, 3, 4].getD (i + j) default) ∧
      ((createSequences id [(1 : ℚ), 2, 3, 4] 2).getD i ([], 0)).2
        = id ([(1 : ℚ), 2, 3, 4].getD (i + 2) default)) :=
  ⟨by decide, by decide, create_sequences_C4 id [(1 : ℚ), 2, 3, 4] 2 (by decide) (by decide)⟩

/-- C1.  When the sequences are built over the baseline frame (which still
carries the `Target` column, with Target of row t equal to Close of row
t plus one), the `Target` entry of the last row of the `i`-th window
equals the `i`-th regression target: each model input window contains its
own prediction target. -/
theorem target_leak_C1 (base : List NRow) (w : ℕ) (hw : 0 < w)
    (hwl : w < (baselineFrame base).length) (i : ℕ)
    (hi : i < (baselineFrame base).length - w) :
    ((((createSequences TRow.close (baselineFrame base) w).getD i
        ([], 0)).1.getLast?.getD default).target)
      = ((createSequences TRow.close (baselineFrame base) w).getD i ([], 0)).2 := by
  rw [createSequences_getD TRow.close (baselineFrame base) w i hi]
  have hlen : (((baselineFrame base).drop i).take w).length = w := by
    rw [List.length_take, List.length_drop]
    omega
  rw [List.getLast?_eq_getElem?, hlen, ← List.getD_eq_getElem?_getD,
    window_getD (baselineFrame base) i w (w - 1) (by omega)]
  have hiw : i + (w - 1) + 1 = i + w := by omega
  have hlt : i + (w - 1) + 1 + 1 < base.length := by
    have := baselineFrame_length base
    omega
  rw [baselineFrame_getD base (i + (w - 1)) (by omega),
    baselineFrame_getD base (i + w) (by omega)]
  simp [hiw]

/-- Witness for C1 on a concrete five-row base dataset with window 2. -/
theorem target_leak_C1_witness :
    0 < 2 ∧
    2 < (baselineFrame [NRow.mk 1 [], NRow.mk 2 [], NRow.mk 3 [],
      NRow.mk 4 [], NRow.mk 5 []]).length ∧
    1 < (baselineFrame [NRow.mk 1 [], NRow.mk 2 [], NRow.mk 3 [],
      NRow.mk 4 [], NRow.mk 5 []]).length - 2 ∧
    ((((createSequences TRow.close (baselineFrame [NRow.mk 1 [], NRow.mk 2 [],
        NRow.mk 3 [], NRow.mk 4 [], NRow.mk 5 []]) 2).getD 1
        ([], 0)).1.getLast?.getD default).target)
      = ((createSequences TRow.close (baselineFrame [NRow.mk 1 [], NRow.mk 2 [],
        NRow.mk 3 [], NRow.mk 4 [], NRow.mk 5 []]) 2).getD 1 ([], 0)).2 :=
  ⟨by decide, by decide, by decide,
    target_leak_C1 [NRow.mk 1 [], NRow.mk 2 [], NRow.mk 3 [],
      NRow.mk 4 [], NRow.mk 5 []] 2 (by decide) (by decide) 1 (by decide)⟩

/-! ### Train and test splits (notebook sections 6, 7, 8) -/

/-- Split of the baseline model: `train_test_split` with a held-out share
of one fifth and no shuffling keeps the first `n - ceil(n / 5)` rows for
training and the remaining rows, in order, for testing. -/
def baselineSplit {α : Type} (xs : List α) : List α × List α :=
  (xs.take (xs.length - (xs.length + 4) / 5),
   xs.drop (xs.length - (xs.length + 4) / 5))

/-- Training size of the sequence models: the integer part of four fifths
of the number of sequences. -/
def seqTrainSize (n : ℕ) : ℕ := 4 * n / 5

/-- Split of the sequence models: first `seqTrainSize` sequences train,
the rest test. -/
def seqSplit {α : Type} (xs : List α) : List α × List α :=
  (xs.take (seqTrainSize xs.length), xs.drop (seqTrainSize xs.length))

/-- C9.  Both splits are chronological prefix splits with no shuffling:
train followed by test reassembles the input in order, and in both cases
the training part is exactly the first `floor(0.8 * n)` elements. -/
theorem chronological_split_C9 {α : Type} (xs : List α) :
    (baselineSplit xs).1 ++ (baselineSplit xs).2 = xs ∧
    (baselineSplit xs).1 = xs.take (4 * xs.length / 5) ∧
    (baselineSplit xs).1.length = 4 * xs.length / 5 ∧
    (baselineSplit xs).2.length = xs.length - 4 * xs.length / 5 ∧
    (seqSplit xs).1 ++ (seqSplit xs).2 = xs ∧
    (seqSplit xs).1 = xs.take (4 * xs.length / 5) ∧
    (seqSplit xs).1.length = 4 * xs.length / 5 := by
  have key : xs.length - (xs.length + 4) / 5 = 4 * xs.length / 5 := by omega
  have hle : 4 * xs.length / 5 ≤ xs.length := by omega
  refine ⟨List.take_append_drop _ xs, ?_, ?_, ?_,
    List.take_append_drop _ xs, ?_, ?_⟩
  · rw [baselineSplit, key]
  · rw [baselineSplit, key, List.length_take]
    omega
  · rw [baselineSplit, key, List.length_drop]
  · rfl
  · rw [seqSplit, seqTrainSize, List.length_take]
    omega

/-! ### Hyperparameter grid search (notebook section 8) -/

/-- Recurrent architecture trained during the grid search. -/
inductive ModelKind where
  | lstm
  | gru
deriving DecidableEq, Repr

/-- One row of the grid-search results table. -/
structure GridEntry where
  model : ModelKind
  windowSize : ℕ
  units : ℕ
  batchSize : ℕ
  learningRate : ℚ
deriving DecidableEq, Repr

def windowSizes : List ℕ := [10, 20, 30]

def unitsOptions : List ℕ := [32, 64, 128]

def batchSizes : List ℕ := [32, 64]

def learningRates : List ℚ := [mkRat 1 1000, mkRat 5 10000]

/-- Cartesian product of the four hyperparameter lists, in the row-major
order the product iterator enumerates. -/
def gridCombos : List (ℕ × ℕ × ℕ × ℚ) :=
  windowSizes.bind fun w => unitsOptions.bind fun u =>
    batchSizes.bind fun b => learningRates.map fun lr => (w, u, b, lr)

/-- Results table of the grid search: per combination one LSTM entry is
appended and then one GRU entry. -/
def gridResults : List GridEntry :=
  gridCombos.bind fun c =>
    [GridEntry.mk ModelKind.lstm c.1 c.2.1 c.2.2.1 c.2.2.2,
     GridEntry.mk ModelKind.gru c.1 c.2.1 c.2.2.1 c.2.2.2]

/-- C8.  The grid search evaluates all 36 hyperparameter combinations once
per architecture: the results table has exactly 72 entries, and every
combination contributes exactly one LSTM entry and exactly one GRU
entry. -/
theorem grid_search_C8 :
    gridResults.length = 72 ∧
    gridCombos.length = 36 ∧
    ∀ c ∈ gridCombos,
      gridResults.count (GridEntry.mk ModelKind.lstm c.1 c.2.1 c.2.2.1 c.2.2.2) = 1 ∧
      gridResults.count (GridEntry.mk ModelKind.gru c.1 c.2.1 c.2.2.1 c.2.2.2) = 1 := by
  decide

/-! ### Rolling-window indicator machinery (notebook section 3)

Series are partial functions from row index to value: `none` models a
pandas NaN cell. -/

/-- Rolling mean over a full window of size `w`, as `rolling(w).mean()`
computes it with the default minimum of `w` observations: defined at `t`
only when `w` rows exist up to `t` and every value in the window
`t - w + 1, …, t` is defined. -/
def rollingMean (w : ℕ) (f : ℕ → Option ℚ) (t : ℕ) : Option ℚ :=
  if w ≤ t + 1 then
    ((List.range w).mapM fun k => f (t + 1 - w + k)).map fun vs => vs.sum / (w : ℚ)
  else none

/-- Day-over-day difference `Close.diff()`: undefined at row `0` and
beyond the end of the column. -/
def deltaAt (close : List ℚ) (t : ℕ) : Option ℚ :=
  if 1 ≤ t then
    close[t]?.bind fun c => close[t - 1]?.map fun p => c - p
  else none

/-- Positive part of the daily change, `delta.where(delta > 0, 0)`:
`where` keeps an entry only where the condition holds and writes `0`
elsewhere, and the NaN delta of row 0 compares false, so that row is
filled with `0` rather than staying undefined. -/
def gainAt (close : List ℚ) (t : ℕ) : Option ℚ :=
  close[t]?.map fun _ =>
    match deltaAt close t with
    | some d => if 0 < d then d else 0
    | none => 0

/-- Negated negative part of the daily change, `-delta.where(delta < 0, 0)`:
as for the gains, the NaN delta of row 0 fails the condition and the row
is filled with `0` before the negation. -/
def lossAt (close : List ℚ) (t : ℕ) : Option ℚ :=
  close[t]?.map fun _ =>
    match deltaAt close t with
    | some d => -(if d < 0 then d else 0)
    | none => 0

/-- Fourteen-day average gain. -/
def gainAvg (close : List ℚ) (t : ℕ) : Option ℚ :=
  rollingMean 14 (gainAt close) t

/-- Fourteen-day average loss. -/
def lossAvg (close : List ℚ) (t : ℕ) : Option ℚ :=
  rollingMean 14 (lossAt close) t

/-- RSI over 14 days, `100 - 100 / (1 + rs)` with `rs = gain / loss`.
The two branches on a zero average loss mirror the float semantics of
the source: a positive average gain divided by a zero average loss is
infinite and the formula collapses to `100`, while `0 / 0` is NaN and the
cell is undefined. -/
def rsi14 (close : List ℚ) (t : ℕ) : Option ℚ :=
  match gainAvg close t, lossAvg close t with
  | some g, some l =>
      if l = 0 then (if g = 0 then none else some 100)
      else some (100 - 100 / (1 + g / l))
  | _, _ => none

/-- Row-wise maximum of a list of cells, skipping undefined cells, as
`DataFrame.max(axis=1)` computes it with its default `skipna`. -/
def maxSkipNA (xs : List (Option ℚ)) : Option ℚ :=
  xs.foldl
    (fun acc x =>
      match acc, x with
      | none, b => b
      | some a, none => some a
      | some a, some b => some (max a b))
    none

/-- True range of row `t`: the row-wise maximum of `high - low`,
`abs (high - previous close)` and `abs (low - previous close)`, where the
two terms with the shifted close are undefined at row `0`. -/
def trueRange (high low close : List ℚ) (t : ℕ) : Option ℚ :=
  maxSkipNA
    [high[t]?.bind fun hv => low[t]?.map fun lv => hv - lv,
     high[t]?.bind fun hv =>
       (if 1 ≤ t then close[t - 1]? else none).map fun pc => abs (hv - pc),
     low[t]?.bind fun lv =>
       (if 1 ≤ t then close[t - 1]? else none).map fun pc => abs (lv - pc)]

/-- ATR over 14 days: the rolling mean of the true range. -/
def atr14 (high low close : List ℚ) (t : ℕ) : Option ℚ :=
  rollingMean 14 (trueRange high low close) t

/-- Total form of the true range the code computes at an in-range row:
`high - low` alone at row `0`, otherwise the maximum of `high - low` and
the two absolute differences against the previous close. -/
def trVal (high low close : List ℚ) (t : ℕ) : ℚ :=
  if t = 0 then high.getD 0 0 - low.getD 0 0
  else
    max (high.getD t 0 - low.getD t 0)
      (max (abs (high.getD t 0 - close.getD (t - 1) 0))
        (abs (low.getD t 0 - close.getD (t - 1) 0)))

/-- True range exactly as claim C2 words it: the maximum of `high - low`,
`high - previous close` and `low - previous close`, without absolute
values. -/
def trWordedC2 (high low close : List ℚ) (t : ℕ) : ℚ :=
  max (high.getD t 0 - low.getD t 0)
    (max (high.getD t 0 - close.getD (t - 1) 0)
      (low.getD t 0 - close.getD (t - 1) 0))

/-- ATR exactly as claim C2 words it: for `t ≥ 14` the arithmetic mean of
the worded true range over the 14 most recent rows, undefined earlier. -/
def atr14WordedC2 (high low close : List ℚ) (t : ℕ) : Option ℚ :=
  if 14 ≤ t ∧ t < high.length then
    some ((((List.range 14).map fun k => trWordedC2 high low close (t - 13 + k)).sum) / 14)
  else none

/-! ### Helper lemmas for `mapM` over `Option` -/

theorem mapM_eq_map_of_some {α β : Type} (f : α → Option β) (g : α → β) :
    ∀ l : List α, (∀ x ∈ l, f x = some (g x)) → l.mapM f = some (l.map g) := by
  intro l
  induction l with
  | nil => intro _; rfl
  | cons a l ih =>
    intro h
    rw [List.mapM_cons, h a (List.mem_cons_self a l),
      ih fun x hx => h x (List.mem_cons_of_mem a hx)]
    rfl

theorem mapM_mem_some {α β : Type} (f : α → Option β) :
    ∀ (l : List α) (vs : List β), l.mapM f = some vs →
      ∀ v ∈ vs, ∃ x ∈ l, f x = some v := by
  intro l
  induction l with
  | nil =>
    intro vs h v hv
    simp only [List.mapM_nil, pure, Option.some.injEq] at h
    subst h
    simp at hv
  | cons a l ih =>
    intro vs h v hv
    rw [List.mapM_cons] at h
    cases ha : f a with
    | none => rw [ha] at h; simp at h
    | some b =>
      rw [ha] at h
      cases hl : l.mapM f with
      | none => rw [hl] at h; simp at h
      | some bs =>
        rw [hl] at h
        simp only [Option.bind_eq_bind, Option.some_bind, pure,
          Option.some.injEq] at h
        subst h
        rcases List.mem_cons.mp hv with h2 | h2
        · exact ⟨a, List.mem_cons_self a l, by rw [ha, h2]⟩
        · obtain ⟨x, hx, hfx⟩ := ih bs hl v h2
          exact ⟨x, List.mem_cons_of_mem a hx, hfx⟩

theorem rollingMean_nonneg (w : ℕ) (f : ℕ → Option ℚ) (t : ℕ) (v : ℚ)
    (hf : ∀ s y, f s = some y → 0 ≤ y) (h : rollingMean w f t = some v) :
    0 ≤ v := by
  rw [rollingMean] at h
  by_cases hw : w ≤ t + 1
  · rw [if_pos hw] at h
    obtain ⟨vs, hvs, hv⟩ := Option.map_eq_some'.mp h
    subst hv
    refine div_nonneg (List.sum_nonneg ?_) (by positivity)
    intro y hy
    obtain ⟨k, _, hk⟩ := mapM_mem_some _ _ _ hvs y hy
    exact hf _ y hk
  · rw [if_neg hw] at h
    exact absurd h (Option.noConfusion)

theorem gainAt_nonneg (close : List ℚ) (s : ℕ) (y : ℚ)
    (h : gainAt close s = some y) : 0 ≤ y := by
  rw [gainAt] at h
  obtain ⟨c, _, hy⟩ := Option.map_eq_some'.mp h
  subst hy
  cases hd : deltaAt close s with
  | none =>
    exact le_refl 0
  | some d =>
    show 0 ≤ if 0 < d then d else 0
    by_cases h0 : 0 < d
    · rw [if_pos h0]; exact le_of_lt h0
    · rw [if_neg h0]

theorem lossAt_nonneg (close : List ℚ) (s : ℕ) (y : ℚ)
    (h : lossAt close s = some y) : 0 ≤ y := by
  rw [lossAt] at h
  obtain ⟨c, _, hy⟩ := Option.map_eq_some'.mp h
  subst hy
  cases hd : deltaAt close s with
  | none =>
    exact le_refl 0
  | some d =>
    show 0 ≤ -(if d < 0 then d else 0)
    by_cases h0 : d < 0
    · rw [if_pos h0]; linarith
    · rw [if_neg h0]; simp

/-- C10.  Whenever the 14-day RSI of a row is defined, it lies in
`[0, 100]`; the 14-day average gain and average loss exist there, both
are non-negative and not both zero, and wherever the average loss is
non-zero the RSI value is exactly `100 - 100 / (1 + rs)` with
`rs = average gain / average loss` (a zero average loss forces the
value `100`, the limit of the formula). -/
theorem rsi14_range_C10 (close : List ℚ) (t : ℕ) (x : ℚ)
    (hx : rsi14 close t = some x) :
    0 ≤ x ∧ x ≤ 100 ∧
    ∃ g l, gainAvg close t = some g ∧ lossAvg close t = some l ∧
      0 ≤ g ∧ 0 ≤ l ∧ ¬(g = 0 ∧ l = 0) ∧
      (l ≠ 0 → x = 100 - 100 / (1 + g / l)) ∧
      (l = 0 → x = 100) := by
  cases hg : gainAvg close t with
  | none => simp [rsi14, hg] at hx
  | some g =>
    cases hl : lossAvg close t with
    | none => simp [rsi14, hg, hl] at hx
    | some l =>
      have hg0 : 0 ≤ g :=
        rollingMean_nonneg 14 (gainAt close) t g (gainAt_nonneg close) hg
      have hl0 : 0 ≤ l :=
        rollingMean_nonneg 14 (lossAt close) t l (lossAt_nonneg close) hl
      simp only [rsi14, hg, hl] at hx
      by_cases hlz : l = 0
      · rw [if_pos hlz] at hx
        by_cases hgz : g = 0
        · rw [if_pos hgz] at hx
          exact absurd hx (Option.noConfusion)
        · rw [if_neg hgz] at hx
          obtain hx100 : (100 : ℚ) = x := Option.some.injEq _ _ ▸ hx
          subst hx100
          exact ⟨by norm_num, le_refl 100,
            g, l, rfl, rfl, hg0, hl0, fun hc => hgz hc.1,
            fun hne => absurd hlz hne, fun _ => rfl⟩
      · rw [if_neg hlz] at hx
        obtain hxv : 100 - 100 / (1 + g / l) = x := Option.some.injEq _ _ ▸ hx
        subst hxv
        have hlpos : 0 < l := lt_of_le_of_ne hl0 (Ne.symm hlz)
        have hrs : 0 ≤ g / l := div_nonneg hg0 (le_of_lt hlpos)
        have hfrac_pos : 0 < 100 / (1 + g / l) := by positivity
        have hfrac_le : 100 / (1 + g / l) ≤ 100 :=
          div_le_self (by norm_num) (by linarith)
        exact ⟨by linarith, by linarith,
          g, l, rfl, rfl, hg0, hl0, fun hc => hlz hc.2,
          fun _ => rfl, fun hc => absurd hc hlz⟩

theorem rollingMean_eq_sum (w : ℕ) (f : ℕ → Option ℚ) (t : ℕ) (g : ℕ → ℚ)
    (hw2 : w ≤ t + 1) (h : ∀ k, k < w → f (t + 1 - w + k) = some (g k)) :
    rollingMean w f t = some (((List.range w).map g).sum / (w : ℚ)) := by
  rw [rollingMean, if_pos hw2,
    mapM_eq_map_of_some (fun k => f (t + 1 - w + k)) g _
      (fun k hk => h k (List.mem_range.mp hk))]
  rfl

theorem rollingMean_const (w : ℕ) (f : ℕ → Option ℚ) (t : ℕ) (c : ℚ)
    (hw : 0 < w) (hw2 : w ≤ t + 1)
    (h : ∀ k, k < w → f (t + 1 - w + k) = some c) :
    rollingMean w f t = some c := by
  rw [rollingMean_eq_sum w f t (fun _ => c) hw2 h]
  congr 1
  rw [List.map_const', List.sum_replicate, List.length_range, nsmul_eq_mul]
  field_simp

theorem getElem?_eq_some_getD (l : List ℚ) (t : ℕ) (h : t < l.length) :
    l[t]? = some (l.getD t 0) := by
  rw [List.getElem?_eq_getElem h, List.getD_eq_getElem?_getD,
    List.getElem?_eq_getElem h]
  rfl

theorem trueRange_eq_trVal (high low close : List ℚ) (t : ℕ)
    (hL : low.length = high.length) (hC : close.length = high.length)
    (ht : t < high.length) :
    trueRange high low close t = some (trVal high low close t) := by
  have hHt : high[t]? = some (high.getD t 0) := getElem?_eq_some_getD high t ht
  have hLt : low[t]? = some (low.getD t 0) :=
    getElem?_eq_some_getD low t (by omega)
  cases t with
  | zero =>
    have hpc : (if 1 ≤ (0 : ℕ) then close[0 - 1]? else none) = none := rfl
    simp only [trueRange, maxSkipNA, hHt, hLt, hpc, Option.map_none',
      Option.map_some', Option.some_bind, List.foldl_cons, List.foldl_nil]
    rw [trVal, if_pos rfl]
  | succ n =>
    have hCn : close[n]? = some (close.getD n 0) :=
      getElem?_eq_some_getD close n (by omega)
    have hpc : (if 1 ≤ n + 1 then close[n + 1 - 1]? else none) =
        some (close.getD n 0) := by
      rw [if_pos (Nat.le_add_left 1 n), Nat.add_sub_cancel, hCn]
    simp only [trueRange, maxSkipNA, hHt, hLt, hpc, Option.map_some',
      Option.some_bind, List.foldl_cons, List.foldl_nil]
    rw [trVal, if_neg (Nat.succ_ne_zero n)]
    simp only [Nat.add_sub_cancel, max_assoc]

/-- Concrete strictly increasing fifteen-row close column. -/
def incCls : List ℚ := List.map (fun n : ℕ => (n : ℚ)) (List.range 15)

theorem incCls_getElem? (s : ℕ) (hs : s < 15) : incCls[s]? = some (s : ℚ) := by
  rw [incCls, List.getElem?_map, List.getElem?_range hs]
  rfl

theorem deltaAt_incCls (k : ℕ) (hk : k < 14) :
    deltaAt incCls (k + 1) = some 1 := by
  rw [deltaAt, if_pos (Nat.le_add_left 1 k),
    incCls_getElem? (k + 1) (by omega), Nat.add_sub_cancel,
    incCls_getElem? k (by omega)]
  have hc : ((k + 1 : ℕ) : ℚ) - (k : ℚ) = 1 := by push_cast; ring
  simp only [Option.some_bind, Option.map_some', hc]

theorem gainAt_incCls (k : ℕ) (hk : k < 14) :
    gainAt incCls (13 + 1 - 14 + k) = some (if k = 0 then 0 else 1) := by
  have hidx : 13 + 1 - 14 + k = k := by omega
  rw [hidx]
  match k, hk with
  | 0, _ =>
    rw [gainAt, incCls_getElem? 0 (by omega), Option.map_some',
      show deltaAt incCls 0 = none from rfl]
    rfl
  | (n + 1), hk =>
    rw [gainAt, incCls_getElem? (n + 1) (by omega), Option.map_some',
      deltaAt_incCls n (by omega)]
    norm_num

theorem lossAt_incCls (k : ℕ) (hk : k < 14) :
    lossAt incCls (13 + 1 - 14 + k) = some 0 := by
  have hidx : 13 + 1 - 14 + k = k := by omega
  rw [hidx]
  match k, hk with
  | 0, _ =>
    rw [lossAt, incCls_getElem? 0 (by omega), Option.map_some',
      show deltaAt incCls 0 = none from rfl]
  | (n + 1), hk =>
    rw [lossAt, incCls_getElem? (n + 1) (by omega), Option.map_some',
      deltaAt_incCls n (by omega)]
    norm_num

theorem gainAvg_incCls : gainAvg incCls 13 = some (13 / 14) := by
  rw [gainAvg, rollingMean_eq_sum 14 (gainAt incCls) 13
    (fun k => if k = 0 then 0 else 1) (by omega) gainAt_incCls]
  have hmap : (List.range 14).map (fun k => if k = 0 then (0 : ℚ) else 1)
      = 0 :: List.replicate 13 1 := by decide
  rw [hmap, List.sum_cons, List.sum_replicate, nsmul_eq_mul]
  norm_num

theorem lossAvg_incCls : lossAvg incCls 13 = some 0 :=
  rollingMean_const 14 (lossAt incCls) 13 0 (by norm_num) (by norm_num)
    lossAt_incCls

theorem rsi14_incCls : rsi14 incCls 13 = some 100 := by
  simp only [rsi14, gainAvg_incCls, lossAvg_incCls]
  norm_num

/-- Witness for C10 at the concrete close column `incCls`, row 13: the
first row where both rolling averages exist, the undefined row-0 delta
having been filled with zero by the `where` step. -/
theorem rsi14_range_C10_witness :
    0 ≤ (100 : ℚ) ∧ (100 : ℚ) ≤ 100 ∧
    ∃ g l, gainAvg incCls 13 = some g ∧ lossAvg incCls 13 = some l ∧
      0 ≤ g ∧ 0 ≤ l ∧ ¬(g = 0 ∧ l = 0) ∧
      (l ≠ 0 → (100 : ℚ) = 100 - 100 / (1 + g / l)) ∧
      (l = 0 → (100 : ℚ) = 100) :=
  rsi14_range_C10 incCls 13 100 rsi14_incCls

/-! ### Concrete OHLC data refuting claim C2 -/

/-- High column: a gap-down day after row 0. -/
def ceH : List ℚ := 10 :: List.replicate 14 1

/-- Low column. -/
def ceL : List ℚ := 10 :: List.replicate 14 0

/-- Close column. -/
def ceC : List ℚ := 10 :: List.replicate 14 1

theorem replicate_getD (n : ℕ) (a : ℚ) (k : ℕ) (hk : k < n) :
    (List.replicate n a).getD k 0 = a := by
  rw [List.getD_eq_getElem?_getD, List.getElem?_replicate, if_pos hk]
  rfl

theorem ceH_getD_succ (k : ℕ) (hk : k < 14) : ceH.getD (k + 1) 0 = 1 := by
  rw [ceH, List.getD_cons_succ]
  exact replicate_getD 14 1 k hk

theorem ceL_getD_succ (k : ℕ) (hk : k < 14) : ceL.getD (k + 1) 0 = 0 := by
  rw [ceL, List.getD_cons_succ]
  exact replicate_getD 14 0 k hk

theorem ceC_getD_succ (k : ℕ) (hk : k < 14) : ceC.getD (k + 1) 0 = 1 := by
  rw [ceC, List.getD_cons_succ]
  exact replicate_getD 14 1 k hk

theorem trVal_ce (s : ℕ) (hs : s < 15) :
    trVal ceH ceL ceC s = if s = 0 then 0 else if s = 1 then 10 else 1 := by
  match s with
  | 0 =>
    rw [trVal, if_pos rfl,
      show ceH.getD 0 0 = (10 : ℚ) from rfl,
      show ceL.getD 0 0 = (10 : ℚ) from rfl]
    norm_num
  | 1 =>
    rw [trVal, if_neg Nat.one_ne_zero,
      show (1 : ℕ) - 1 = 0 from rfl,
      ceH_getD_succ 0 (by omega), ceL_getD_succ 0 (by omega),
      show ceC.getD 0 0 = (10 : ℚ) from rfl]
    norm_num
  | (n + 2) =>
    rw [trVal, if_neg (by omega),
      show n + 2 - 1 = n + 1 from rfl,
      ceH_getD_succ (n + 1) (by omega), ceL_getD_succ (n + 1) (by omega),
      ceC_getD_succ n (by omega)]
    have hn2 : ¬(n + 2 = 0) := by omega
    have hn1 : ¬(n + 2 = 1) := by omega
    rw [if_neg hn2, if_neg hn1]
    norm_num

theorem ce_lenL : ceL.length = ceH.length := rfl

theorem ce_lenC : ceC.length = ceH.length := rfl

theorem trueRange_ce14 (k : ℕ) (hk : k < 14) :
    trueRange ceH ceL ceC (14 + 1 - 14 + k) =
      some (if k = 0 then (10 : ℚ) else 1) := by
  have hidx : 14 + 1 - 14 + k = k + 1 := by omega
  rw [hidx, trueRange_eq_trVal ceH ceL ceC (k + 1) ce_lenL ce_lenC
    (by rw [show ceH.length = 15 from rfl]; omega),
    trVal_ce (k + 1) (by omega)]
  by_cases hk0 : k = 0
  · subst hk0; norm_num
  · rw [if_neg (by omega), if_neg (by omega), if_neg hk0]

theorem trueRange_ce13 (k : ℕ) (hk : k < 14) :
    trueRange ceH ceL ceC (13 + 1 - 14 + k) =
      some (if k = 0 then (0 : ℚ) else if k = 1 then 10 else 1) := by
  have hidx : 13 + 1 - 14 + k = k := by omega
  rw [hidx, trueRange_eq_trVal ceH ceL ceC k ce_lenL ce_lenC
    (by rw [show ceH.length = 15 from rfl]; omega), trVal_ce k (by omega)]

theorem trWordedC2_ce (k : ℕ) (hk : k < 14) :
    trWordedC2 ceH ceL ceC (1 + k) = 1 := by
  have hidx : 1 + k = k + 1 := by omega
  rw [hidx, trWordedC2, show k + 1 - 1 = k from rfl,
    ceH_getD_succ k hk, ceL_getD_succ k hk]
  match k with
  | 0 =>
    rw [show ceC.getD 0 0 = (10 : ℚ) from rfl]
    norm_num
  | (n + 1) =>
    rw [ceC_getD_succ n (by omega)]
    norm_num

/-- Counterexample to C2 as stated: on the concrete data `ceH, ceL, ceC`
the code's ATR is already defined at row 13 (the claim says rows below 14
are undefined), and at row 14 it is `23/14`, while the mean of the true
range as the claim words it (without absolute values) is `1`. -/
theorem atr14_counterexample_C2 :
    (atr14 ceH ceL ceC 13).isSome = true ∧
    atr14 ceH ceL ceC 14 = some (23 / 14) ∧
    atr14WordedC2 ceH ceL ceC 14 = some 1 ∧
    (23 : ℚ) / 14 ≠ 1 := by
  refine ⟨?_, ?_, ?_, by norm_num⟩
  · rw [atr14, rollingMean_eq_sum 14 (trueRange ceH ceL ceC) 13
      (fun k => if k = 0 then (0 : ℚ) else if k = 1 then 10 else 1)
      (by omega) trueRange_ce13]
    rfl
  · rw [atr14, rollingMean_eq_sum 14 (trueRange ceH ceL ceC) 14
      (fun k => if k = 0 then (10 : ℚ) else 1) (by omega) trueRange_ce14]
    have hmap : (List.range 14).map (fun k => if k = 0 then (10 : ℚ) else 1)
        = 10 :: List.replicate 13 1 := by decide
    rw [hmap, List.sum_cons, List.sum_replicate, nsmul_eq_mul]
    norm_num
  · rw [atr14WordedC2,
      if_pos ⟨by omega, by rw [show ceH.length = 15 from rfl]; omega⟩]
    have hmap : (List.range 14).map
        (fun k => trWordedC2 ceH ceL ceC (14 - 13 + k))
        = List.replicate 14 (1 : ℚ) := by
      rw [show (14 : ℕ) - 13 = 1 from rfl]
      rw [List.map_congr_left
        (fun k hk => trWordedC2_ce k (List.mem_range.mp hk)),
        List.map_const', List.length_range]
    rw [hmap, List.sum_replicate, nsmul_eq_mul]
    norm_num

/-- C2 as amended.  With aligned columns, the code's ATR at every row
`t ≥ 13` equals the arithmetic mean over the 14 most recent rows of the
true range the code computes — `high - low` alone at row 0, otherwise the
maximum of `high - low` and the absolute differences of high and low
against the previous close — and is undefined exactly at rows `t < 13`. -/
theorem atr14_amended_C2 (high low close : List ℚ) (t : ℕ)
    (hL : low.length = high.length) (hC : close.length = high.length)
    (h13 : 13 ≤ t) (ht : t < high.length) :
    atr14 high low close t =
      some ((((List.range 14).map fun k => trVal high low close (t - 13 + k)).sum) / 14) ∧
    ∀ s, s < 13 → atr14 high low close s = none := by
  constructor
  · have hwin : ∀ k, k < 14 → trueRange high low close (t + 1 - 14 + k)
        = some (trVal high low close (t - 13 + k)) := by
      intro k hk
      have hidx : t + 1 - 14 + k = t - 13 + k := by omega
      rw [hidx]
      exact trueRange_eq_trVal high low close (t - 13 + k) hL hC (by omega)
    rw [atr14, rollingMean_eq_sum 14 (trueRange high low close) t
      (fun k => trVal high low close (t - 13 + k)) (by omega) hwin]
    norm_num
  · intro s hs
    rw [atr14, rollingMean, if_neg (by omega)]

/-- Constant columns used as witness data for the amended C2. -/
def cstH : List ℚ := List.replicate 14 2

def cstL : List ℚ := List.replicate 14 1

def cstC : List ℚ := List.replicate 14 1

/-- Witness for the amended C2 at the fourteen constant rows, row 13. -/
theorem atr14_amended_C2_witness :
    cstL.length = cstH.length ∧ cstC.length = cstH.length ∧
    13 ≤ 13 ∧ 13 < cstH.length ∧
    (atr14 cstH cstL cstC 13 =
      some ((((List.range 14).map fun k => trVal cstH cstL cstC (13 - 13 + k)).sum) / 14) ∧
     ∀ s, s < 13 → atr14 cstH cstL cstC s = none) :=
  ⟨rfl, rfl, by omega, by rw [show cstH.length = 14 from rfl]; omega,
    atr14_amended_C2 cstH cstL cstC 13 rfl rfl (by omega)
      (by rw [show cstH.length = 14 from rfl]; omega)⟩

end StockPred
